import Mathlib

/-!
Shallow embedding of the core logic of `vrep_object.py`:
the bitmask error decoder `VRepError.create`, the retry wrapper
`log_and_retry`, and the band-sliced depth dilation
`get_dilated_depth_buffer`.

Modelling conventions:
* Python integers are `ℤ`; Python's bitwise `&` on integers is `Int.land`
  (two's-complement on negatives, as in Python).
* Image pixel values (numpy float32/float64) are modelled by exact
  rationals `ℚ`.  Every depth value appearing in the claims (0, 0.05,
  0.95, 1.0 and the band edges produced by `np.arange(1, 0.1, -0.1)`)
  is far from the float rounding error of the actual computation, so the
  branch taken by every comparison in the source is the same in the
  exact model.
* Exception-based control flow is modelled with `Option`/sum-like
  inductives: a numpy `ValueError` (negative array dimensions) makes the
  embedded function return `none`.

`Rat` arithmetic is `@[irreducible]` by default, which blocks kernel
evaluation of the concrete computations below; the file-local
`semireducible` attribute re-enables it.
-/

attribute [local semireducible] Rat.add Rat.mul Rat.sub Rat.inv

namespace VrepObject

/-! ### Error codec (`VRepError`) -/

/-- The seven error flags of the `VRepError` enum, in definition order. -/
inductive VRepError where
  | NO_VALUE
  | TIMEOUT
  | ILLEGAL_OPMODE
  | SERVER_ERROR
  | SPLIT_PROGRESS
  | LOCAL_ERROR
  | INIT_ERROR
deriving DecidableEq

/-- Numeric weight of each flag, as in the Python enum. -/
def VRepError.value : VRepError → ℤ
  | .NO_VALUE => 1
  | .TIMEOUT => 2
  | .ILLEGAL_OPMODE => 4
  | .SERVER_ERROR => 8
  | .SPLIT_PROGRESS => 16
  | .LOCAL_ERROR => 32
  | .INIT_ERROR => 64

/-- Iteration order of `for err in VRepError`: Python `Enum` iterates in
definition order, which here is ascending weight order. -/
def VRepError.all : List VRepError :=
  [.NO_VALUE, .TIMEOUT, .ILLEGAL_OPMODE, .SERVER_ERROR,
   .SPLIT_PROGRESS, .LOCAL_ERROR, .INIT_ERROR]

/-- Embedding of `VRepError.create`: `if return_value == 0: return ()`
else the tuple of flags `err` with `bool(return_value & err.value)`.
Python's bitwise `&` on (possibly negative, two's-complement) integers
is `Int.land`. -/
def VRepError.create (return_value : ℤ) : List VRepError :=
  if return_value = 0 then []
  else VRepError.all.filter (fun err => Int.land return_value err.value != 0)

/-! ### Retry wrapper (`log_and_retry`) -/

/-- Outcome of one invocation of the wrapped operation: it returns a
value, raises a `ConnectionError` (carrying some payload `ε`), or raises
any other exception (payload `φ`). -/
inductive Res (α ε φ : Type) where
  | ok (v : α)
  | connError (e : ε)
  | otherError (e : φ)
deriving DecidableEq

/-- Result of the retry loop: the wrapped function's return value, or a
non-`ConnectionError` exception propagated unchanged. -/
inductive RetryOutcome (α φ : Type) where
  | success (v : α)
  | fatal (e : φ)
deriving DecidableEq

/-- Embedding of the `while True` loop of `func_wrapper`.  The wrapped
operation is modelled as a function of the invocation index (the
environment may answer differently on each attempt; the code passes the
same `self, *args` every time).  `fuel` bounds the number of loop
iterations we are willing to unfold; `none` means the loop has not
terminated within `fuel` attempts.  The returned triple is
(outcome, number of invocations of the operation, list of logged
`ConnectionError` payloads: one `print` per caught error). -/
def retryGo (op : ℕ → Res α ε φ) :
    ℕ → ℕ → List ε → Option (RetryOutcome α φ × ℕ × List ε)
  | 0, _, _ => none
  | fuel + 1, k, logs =>
    match op k with
    | .ok v => some (.success v, k + 1, logs)
    | .connError e => retryGo op fuel (k + 1) (logs ++ [e])
    | .otherError e => some (.fatal e, k + 1, logs)

/-- Embedding of `log_and_retry`: run the loop from attempt 0 with an
empty log. -/
def log_and_retry (op : ℕ → Res α ε φ) (fuel : ℕ) :
    Option (RetryOutcome α φ × ℕ × List ε) :=
  retryGo op fuel 0 []

/-! ### Depth dilation (`get_dilated_depth_buffer`)

The dilation body operates on a single in-memory image; we embed it as a
pure function of the fetched image (the `get_depth_buffer` remote fetch
that produces it is I/O and outside the algorithm).  numpy floats are
modelled as exact rationals.
-/

/-- A depth image: an `h × w` grid of rational pixel values. -/
abbrev Image (h w : ℕ) := Fin h → Fin w → ℚ

/-- Embedding of `np.arange(start, stop, step)`: `⌈(stop-start)/step⌉`
values `start + k*step`.  (For the call site `np.arange(1, 0.1, -0.1)`
the float computation and this exact one produce the same band count,
nine, and band edges within 1e-15 of the exact ones, on the same side of
every pixel value compared against them.) -/
def np_arange (start stop step : ℚ) : List ℚ :=
  (List.range (⌈(stop - start) / step⌉.toNat)).map
    fun (k : ℕ) => start + (k : ℚ) * step

/-- Pixel lookup at integer coordinates; `none` when out of bounds.  Used
to model the border handling of `cv2.dilate`: with the default
`BORDER_CONSTANT` border and the dilation border value of `-∞`,
out-of-bounds positions contribute nothing to the maximum. -/
def getPx? {h w : ℕ} (im : Image h w) (Y X : ℤ) : Option ℚ :=
  if hb : 0 ≤ Y ∧ Y < (h : ℤ) ∧ 0 ≤ X ∧ X < (w : ℤ) then
    some (im ⟨Y.toNat, by omega⟩ ⟨X.toNat, by omega⟩)
  else none

/-- Relative offsets covered by a flat square kernel of side `s` with the
default anchor `(s/2, s/2)` (OpenCV: `dst(p) = max src(p + p' - anchor)`
over kernel positions `p'`). -/
def offs (s : ℕ) : List ℤ :=
  (List.range s).map fun (d : ℕ) => (d : ℤ) - ((s / 2 : ℕ) : ℤ)

/-- In-bounds pixel values inside the kernel footprint centred (at the
kernel anchor) on `(y, x)`. -/
def neigh {h w : ℕ} (im : Image h w) (s : ℕ) (y : Fin h) (x : Fin w) :
    List ℚ :=
  (offs s).flatMap fun dy =>
    (offs s).filterMap fun dx => getPx? im ((y.val : ℤ) + dy) ((x.val : ℤ) + dx)

/-- Maximum of a list of footprint values.  The `[]` default is never
reached for the kernel sizes `cv2.dilate` actually uses (side ≥ 1 keeps
the anchor pixel itself in bounds). -/
def listMax : List ℚ → ℚ
  | [] => 0
  | a :: t => t.foldl max a

/-- Grayscale dilation by a flat all-ones square kernel of side `s`. -/
def dilateS {h w : ℕ} (im : Image h w) (s : ℕ) : Image h w :=
  fun y x => listMax (neigh im s y x)

/-- Embedding of `cv2.dilate(im, np.ones((k, k), np.uint8))` for `k ≥ 0`:
for an empty (`0 × 0`) kernel OpenCV substitutes its default 3 × 3
rectangular structuring element. -/
def cv2_dilate {h w : ℕ} (im : Image h w) (k : ℕ) : Image h w :=
  dilateS im (if k = 0 then 3 else k)

/-- Embedding of the band masking
`im_slice[(im_slice <= i - 0.1) | (im_slice > i)] = 0`. -/
def maskSlice {h w : ℕ} (im : Image h w) (i : ℚ) : Image h w :=
  fun y x => if im y x ≤ i - 1/10 ∨ i < im y x then 0 else im y x

/-- Embedding of `ker_size = 2 * radius_f((i - 0.1) * self.max_depth)`.
The radius function maps meters to a pixel count, so it is `ℚ → ℤ`. -/
def kerSize (radius_f : ℚ → ℤ) (max_depth i : ℚ) : ℤ :=
  2 * radius_f ((i - 1/10) * max_depth)

/-- One band's `np.ones` + `cv2.dilate` step: `np.ones((k, k))` raises
`ValueError` for negative `k` (modelled as `none`); otherwise the masked
slice is dilated. -/
def bandDilation {h w : ℕ} (radius_f : ℚ → ℤ) (max_depth : ℚ)
    (im : Image h w) (i : ℚ) : Option (Image h w) :=
  if kerSize radius_f max_depth i < 0 then none
  else some (cv2_dilate (maskSlice im i) (kerSize radius_f max_depth i).toNat)

/-- Embedding of `acc = np.where(im_slice != 0, im_slice, acc)`. -/
def mergeSlice {h w : ℕ} (d acc : Image h w) : Image h w :=
  fun y x => if d y x ≠ 0 then d y x else acc y x

/-- One iteration of the band loop body. -/
def bandStep {h w : ℕ} (radius_f : ℚ → ℤ) (max_depth : ℚ)
    (im : Image h w) (acc : Image h w) (i : ℚ) : Option (Image h w) :=
  (bandDilation radius_f max_depth im i).map fun d => mergeSlice d acc

/-- Embedding of the body of `get_dilated_depth_buffer`: start from an
all-ones accumulator (`np.ones_like`) and fold the band loop
`for i in np.arange(1, 0.1, -0.1)` over it. -/
def get_dilated_depth_buffer {h w : ℕ} (radius_f : ℚ → ℤ)
    (max_depth : ℚ) (im : Image h w) : Option (Image h w) :=
  (np_arange 1 (1/10) (-(1/10))).foldlM (bandStep radius_f max_depth im)
    (fun _ _ => 1)

/-! ### Executable comparisons, pixel counts and example images -/

/-- Executable pixelwise image equality. -/
def imEq {h w : ℕ} (a b : Image h w) : Bool :=
  (List.finRange h).all fun y => (List.finRange w).all fun x => a y x == b y x

/-- Executable test that an optional image is `some b`. -/
def optEqSome {h w : ℕ} (o : Option (Image h w)) (b : Image h w) : Bool :=
  match o with
  | none => false
  | some a => imEq a b

/-- Number of nonzero pixels of an image. -/
def countNonzero {h w : ℕ} (im : Image h w) : ℕ :=
  ((List.finRange h).flatMap fun y =>
    (List.finRange w).filter fun x => im y x != 0).length

/-- A 4 × 4 depth image with one near pixel (depth 0.05) at (1,1) and the
rest at depth 1.0. -/
def exC2 : Image 4 4 := fun y x => if y = 1 ∧ x = 1 then 1/20 else 1

/-- The output the spec predicts for `exC2`: the clipped 3 × 3
neighbourhood of the near pixel at 0.05, the rest at 1.0. -/
def claimedC2 : Image 4 4 :=
  fun y x => if y.val ≤ 2 ∧ x.val ≤ 2 then 1/20 else 1

/-- A 2 × 2 image with one far-band pixel (0.95) and no other reading. -/
def exC8 : Image 2 2 := fun y x => if y = 0 ∧ x = 0 then 19/20 else 0

/-- What a no-op (identity) dilation of every band of `exC8` would merge
to: the 0.95 pixel kept, untouched pixels at the 1.0 sentinel. -/
def noopC8 : Image 2 2 := fun y x => if y = 0 ∧ x = 0 then 19/20 else 1

/-- A 3 × 3 image with a single far-band pixel (0.95) at the centre. -/
def exC9 : Image 3 3 := fun y x => if y = 1 ∧ x = 1 then 19/20 else 0

/-! ### Helper lemmas: codec and comparisons -/

theorem VRepError.mem_all (e : VRepError) : e ∈ VRepError.all := by
  cases e <;> simp [VRepError.all]

theorem imEq_iff {h w : ℕ} {a b : Image h w} : imEq a b = true ↔ a = b := by
  constructor
  · intro hab
    funext y x
    simp only [imEq, List.all_eq_true, List.mem_finRange, true_implies,
      beq_iff_eq] at hab
    exact hab y x
  · rintro rfl
    simp [imEq]

theorem optEqSome_iff {h w : ℕ} {o : Option (Image h w)} {b : Image h w} :
    optEqSome o b = true ↔ o = some b := by
  cases o with
  | none => simp [optEqSome]
  | some a => simp [optEqSome, imEq_iff]

/-! ### Helper lemmas: footprint maxima and neighbourhoods -/

theorem foldl_max_mem : ∀ (t : List ℚ) (a : ℚ), t.foldl max a ∈ a :: t := by
  intro t
  induction t with
  | nil => intro a; simp [List.foldl]
  | cons b t ih =>
    intro a
    have h := ih (max a b)
    rw [List.foldl_cons]
    rcases max_choice a b with hm | hm <;> rw [hm] at h <;>
      rcases List.mem_cons.mp h with h' | h' <;> simp [h', hm]

theorem le_foldl_max_init : ∀ (t : List ℚ) (a : ℚ), a ≤ t.foldl max a := by
  intro t
  induction t with
  | nil => intro a; simp [List.foldl]
  | cons b t ih =>
    intro a
    exact le_trans (le_max_left a b) (ih (max a b))

theorem le_foldl_max_of_mem :
    ∀ (t : List ℚ) (a q : ℚ), q ∈ t → q ≤ t.foldl max a := by
  intro t
  induction t with
  | nil => intro a q hq; simp at hq
  | cons b t ih =>
    intro a q hq
    rw [List.foldl_cons]
    rcases List.mem_cons.mp hq with rfl | hq'
    · exact le_trans (le_max_right a q) (le_foldl_max_init t (max a q))
    · exact ih (max a b) q hq'

theorem listMax_mem {l : List ℚ} (hl : l ≠ []) : listMax l ∈ l := by
  match l with
  | a :: t => exact foldl_max_mem t a

theorem le_listMax {l : List ℚ} {q : ℚ} (hq : q ∈ l) : q ≤ listMax l := by
  match l with
  | a :: t =>
    rcases List.mem_cons.mp hq with rfl | hq'
    · exact le_foldl_max_init t q
    · exact le_foldl_max_of_mem t a q hq'

theorem listMax_eq_of_all {l : List ℚ} {c : ℚ} (hall : ∀ q ∈ l, q = c)
    (hl : l ≠ []) : listMax l = c :=
  hall _ (listMax_mem hl)

theorem listMax_zero_of_all {l : List ℚ} (hall : ∀ q ∈ l, q = 0) :
    listMax l = 0 := by
  match l with
  | [] => rfl
  | a :: t => exact listMax_eq_of_all hall (by simp)

theorem neigh_val {h w : ℕ} {im : Image h w} {s : ℕ} {y : Fin h} {x : Fin w}
    {q : ℚ} (hq : q ∈ neigh im s y x) :
    ∃ (a : Fin h) (b : Fin w), q = im a b := by
  simp only [neigh, List.mem_flatMap, List.mem_filterMap] at hq
  obtain ⟨dy, -, dx, -, hpx⟩ := hq
  unfold getPx? at hpx
  split at hpx
  · exact ⟨_, _, (Option.some.inj hpx).symm⟩
  · exact absurd hpx (by simp)

theorem zero_mem_offs {s : ℕ} (hs : 1 ≤ s) : (0 : ℤ) ∈ offs s := by
  have h1 : s / 2 < s := Nat.div_lt_self (by omega) (by omega)
  have h2 : ((s / 2 : ℕ) : ℤ) - ((s / 2 : ℕ) : ℤ) = 0 := by omega
  exact List.mem_map.mpr ⟨s / 2, List.mem_range.mpr h1, h2⟩

theorem offs_subset {s s' : ℕ} (hss : s ≤ s') : offs s ⊆ offs s' := by
  intro e he
  simp only [offs, List.mem_map, List.mem_range] at he ⊢
  obtain ⟨d, hd, rfl⟩ := he
  refine ⟨((d : ℤ) - ((s / 2 : ℕ) : ℤ) + ((s' / 2 : ℕ) : ℤ)).toNat, ?_, ?_⟩
  · omega
  · omega

theorem center_mem_neigh {h w : ℕ} (im : Image h w) {s : ℕ} (hs : 1 ≤ s)
    (y : Fin h) (x : Fin w) : im y x ∈ neigh im s y x := by
  simp only [neigh, List.mem_flatMap, List.mem_filterMap]
  refine ⟨0, zero_mem_offs hs, 0, zero_mem_offs hs, ?_⟩
  have hy := y.isLt
  have hx := x.isLt
  rw [getPx?, dif_pos (by omega)]
  have ey : (⟨((y.val : ℤ) + 0).toNat, by omega⟩ : Fin h) = y :=
    Fin.ext (show ((y.val : ℤ) + 0).toNat = y.val by omega)
  have ex : (⟨((x.val : ℤ) + 0).toNat, by omega⟩ : Fin w) = x :=
    Fin.ext (show ((x.val : ℤ) + 0).toNat = x.val by omega)
  rw [ey, ex]

theorem neigh_subset {h w : ℕ} (im : Image h w) {s s' : ℕ} (hss : s ≤ s')
    (y : Fin h) (x : Fin w) : neigh im s y x ⊆ neigh im s' y x := by
  intro q hq
  simp only [neigh, List.mem_flatMap, List.mem_filterMap] at hq ⊢
  obtain ⟨dy, hdy, dx, hdx, hpx⟩ := hq
  exact ⟨dy, offs_subset hss hdy, dx, offs_subset hss hdx, hpx⟩

/-! ### Helper lemmas: constant images, band steps and the band fold -/

theorem dilateS_zero {h w : ℕ} {im : Image h w} (him : im = fun _ _ => 0)
    (s : ℕ) : dilateS im s = fun _ _ => 0 := by
  funext y x
  refine listMax_zero_of_all fun q hq => ?_
  obtain ⟨a, b, rfl⟩ := neigh_val hq
  rw [him]

theorem dilateS_const {h w : ℕ} (c : ℚ) {s : ℕ} (hs : 1 ≤ s) :
    dilateS (fun _ _ => c : Image h w) s = fun _ _ => c := by
  funext y x
  refine listMax_eq_of_all (fun q hq => ?_) ?_
  · obtain ⟨a, b, hab⟩ := neigh_val hq
    exact hab
  · exact List.ne_nil_of_mem (center_mem_neigh _ hs y x)

theorem cv2_dilate_side_pos (k : ℕ) : 1 ≤ (if k = 0 then 3 else k) := by
  split <;> omega

theorem mergeSlice_zero {h w : ℕ} {d : Image h w} (hd : d = fun _ _ => 0)
    (acc : Image h w) : mergeSlice d acc = acc := by
  funext y x
  simp [mergeSlice, hd]

theorem kerSize_nonneg {radius_f : ℚ → ℤ} (hrf : ∀ q, 0 ≤ radius_f q)
    (max_depth i : ℚ) : ¬ kerSize radius_f max_depth i < 0 := by
  have := hrf ((i - 1/10) * max_depth)
  unfold kerSize
  omega

theorem bandStep_slice_zero {h w : ℕ} {radius_f : ℚ → ℤ} {max_depth : ℚ}
    {im : Image h w} {i : ℚ} (hrf : ∀ q, 0 ≤ radius_f q)
    (hmask : maskSlice im i = fun _ _ => 0) (acc : Image h w) :
    bandStep radius_f max_depth im acc i = some acc := by
  unfold bandStep bandDilation
  rw [if_neg (kerSize_nonneg hrf max_depth i)]
  simp only [Option.map_some']
  rw [cv2_dilate, dilateS_zero hmask, mergeSlice_zero rfl]

theorem foldlM_keep {h w : ℕ} {radius_f : ℚ → ℤ} {max_depth : ℚ}
    {im : Image h w} :
    ∀ (t : List ℚ) (acc : Image h w),
      (∀ i ∈ t, ∀ a : Image h w, bandStep radius_f max_depth im a i = some a) →
      t.foldlM (bandStep radius_f max_depth im) acc = some acc := by
  intro t
  induction t with
  | nil => intro acc _; rfl
  | cons j t ih =>
    intro acc hall
    rw [List.foldlM_cons, hall j (by simp) acc]
    exact ih acc fun i hi => hall i (by simp [hi])

theorem np_arange_bands : np_arange 1 (1/10) (-(1/10)) =
    [1, 9/10, 4/5, 7/10, 3/5, 1/2, 2/5, 3/10, 1/5] := by decide

theorem maskSlice_ones_one {h w : ℕ} :
    maskSlice (fun _ _ => 1 : Image h w) 1 = fun _ _ => 1 := by
  funext y x
  rw [maskSlice, if_neg (by norm_num)]

theorem maskSlice_ones_lt {h w : ℕ} {i : ℚ} (hi : i < 1) :
    maskSlice (fun _ _ => 1 : Image h w) i = fun _ _ => 0 := by
  funext y x
  rw [maskSlice, if_pos (Or.inr hi)]

theorem maskSlice_zeros {h w : ℕ} {i : ℚ} (hi : 1/10 ≤ i) :
    maskSlice (fun _ _ => 0 : Image h w) i = fun _ _ => 0 := by
  funext y x
  rw [maskSlice, if_pos (Or.inl (by linarith))]

theorem mergeSlice_ones {h w : ℕ} (acc : Image h w) :
    mergeSlice (fun _ _ => 1) acc = fun _ _ => 1 := by
  funext y x
  rw [mergeSlice, if_pos (by norm_num)]

theorem bandStep_ones {h w : ℕ} {radius_f : ℚ → ℤ} {max_depth : ℚ}
    (hrf : ∀ q, 0 ≤ radius_f q) (acc : Image h w) :
    bandStep radius_f max_depth (fun _ _ => 1) acc 1 = some (fun _ _ => 1) := by
  unfold bandStep bandDilation
  rw [if_neg (kerSize_nonneg hrf max_depth 1)]
  simp only [Option.map_some']
  rw [cv2_dilate, maskSlice_ones_one,
    dilateS_const 1 (cv2_dilate_side_pos _), mergeSlice_ones]

theorem foldlM_none {h w : ℕ} {radius_f : ℚ → ℤ} {max_depth : ℚ}
    {im : Image h w} :
    ∀ (l : List ℚ), (∃ i ∈ l, kerSize radius_f max_depth i < 0) →
      ∀ acc : Image h w, l.foldlM (bandStep radius_f max_depth im) acc = none := by
  intro l
  induction l with
  | nil => rintro ⟨i, hi, -⟩; simp at hi
  | cons j t ih =>
    rintro ⟨i, hi, hneg⟩ acc
    rcases List.mem_cons.mp hi with rfl | hi'
    · rw [List.foldlM_cons]
      unfold bandStep bandDilation
      rw [if_pos hneg]
      rfl
    · rw [List.foldlM_cons]
      cases hb : bandStep radius_f max_depth im acc j with
      | none => rfl
      | some a => exact ih ⟨i, hi', hneg⟩ a

theorem foldlM_ne_zero {h w : ℕ} {radius_f : ℚ → ℤ} {max_depth : ℚ}
    {im : Image h w} :
    ∀ (l : List ℚ) (acc : Image h w), (∀ y x, acc y x ≠ 0) →
      ∀ out, l.foldlM (bandStep radius_f max_depth im) acc = some out →
      ∀ y x, out y x ≠ 0 := by
  intro l
  induction l with
  | nil =>
    intro acc hacc out hout
    obtain rfl : acc = out := Option.some.inj hout
    exact hacc
  | cons j t ih =>
    intro acc hacc out hout
    rw [List.foldlM_cons] at hout
    cases hb : bandStep radius_f max_depth im acc j with
    | none => rw [hb] at hout; exact absurd hout (by simp)
    | some a =>
      rw [hb] at hout
      refine ih a ?_ out hout
      unfold bandStep at hb
      cases hbd : bandDilation radius_f max_depth im j with
      | none => rw [hbd] at hb; exact absurd hb (by simp)
      | some d =>
        rw [hbd] at hb
        obtain rfl : mergeSlice d acc = a := Option.some.inj (by simpa using hb)
        intro y x
        rw [mergeSlice]
        split
        · assumption
        · exact hacc y x

/-! ### Helper lemmas: retry loop unfolding -/

theorem retryGo_conn {α ε φ : Type} :
    ∀ (N : ℕ) (op : ℕ → Res α ε φ) (errs : ℕ → ε) (v : α) (k : ℕ)
      (logs : List ε) (fuel : ℕ),
      (∀ j, j < N → op (k + j) = .connError (errs (k + j))) →
      op (k + N) = .ok v → N < fuel →
      retryGo op fuel k logs =
        some (.success v, k + N + 1, logs ++ (List.range' k N).map errs) := by
  intro N
  induction N with
  | zero =>
    intro op errs v k logs fuel hconn hok hfuel
    match fuel, hfuel with
    | fuel + 1, _ =>
      have hok' : op k = .ok v := by simpa using hok
      simp [retryGo, hok', List.range']
  | succ N ih =>
    intro op errs v k logs fuel hconn hok hfuel
    match fuel, hfuel with
    | fuel + 1, hfuel =>
      have hc0 : op k = .connError (errs k) := by
        simpa using hconn 0 (Nat.succ_pos N)
      have step : retryGo op (fuel + 1) k logs =
          retryGo op fuel (k + 1) (logs ++ [errs k]) := by
        simp [retryGo, hc0]
      rw [step]
      have hconn' : ∀ j, j < N →
          op (k + 1 + j) = .connError (errs (k + 1 + j)) := by
        intro j hj
        have := hconn (j + 1) (by omega)
        simpa [Nat.add_assoc, Nat.add_comm 1 j] using this
      have hok' : op (k + 1 + N) = .ok v := by
        have he : k + 1 + N = k + (N + 1) := by omega
        rw [he]
        exact hok
      have hrec := ih op errs v (k + 1) (logs ++ [errs k]) fuel hconn' hok'
        (by omega)
      rw [hrec, List.range'_succ]
      simp [Nat.add_assoc, Nat.add_comm 1 N]

/-! ### Helper lemmas: nonzero pixel counts -/

theorem countNonzero_mono {h w : ℕ} {im im' : Image h w}
    (hmono : ∀ y x, im y x ≠ 0 → im' y x ≠ 0) :
    countNonzero im ≤ countNonzero im' := by
  unfold countNonzero
  induction List.finRange h with
  | nil => simp
  | cons y L ih =>
    rw [List.flatMap_cons, List.flatMap_cons, List.length_append,
      List.length_append]
    refine Nat.add_le_add ?_ ih
    refine List.Sublist.length_le (List.monotone_filter_right _ fun a ha => ?_)
    simp only [bne_iff_ne, ne_eq, decide_eq_true_eq] at ha ⊢
    exact hmono y a ha

theorem maskSlice_nonneg {h w : ℕ} {im : Image h w} {i : ℚ}
    (hi : 1/10 ≤ i) (y : Fin h) (x : Fin w) : 0 ≤ maskSlice im i y x := by
  simp only [maskSlice]
  by_cases hc : im y x ≤ i - 1/10 ∨ i < im y x
  · rw [if_pos hc]
  · rw [if_neg hc]
    push_neg at hc
    linarith [hc.1]

theorem dilate_px_mono {h w : ℕ} {im : Image h w}
    (hnn : ∀ y x, 0 ≤ im y x) {s s' : ℕ} (hss : s ≤ s')
    (y : Fin h) (x : Fin w) (hne : dilateS im s y x ≠ 0) :
    dilateS im s' y x ≠ 0 := by
  unfold dilateS at hne ⊢
  have hnil : neigh im s y x ≠ [] := by
    intro h0
    rw [h0] at hne
    exact hne rfl
  have hmem : listMax (neigh im s y x) ∈ neigh im s y x := listMax_mem hnil
  have hmnn : 0 ≤ listMax (neigh im s y x) := by
    obtain ⟨a, b, hab⟩ := neigh_val hmem
    rw [hab]
    exact hnn a b
  have hmpos : 0 < listMax (neigh im s y x) := lt_of_le_of_ne hmnn (Ne.symm hne)
  have hle : listMax (neigh im s y x) ≤ listMax (neigh im s' y x) :=
    le_listMax (neigh_subset im hss y x hmem)
  intro h0
  rw [h0] at hle
  linarith

/-! ### Claim C1 -/

/-- C1, counterexample: `np.arange(1, 0.1, -0.1)` produces only nine
band edges (the stop value is excluded), and the depth-0.05 pixel of
`exC2` is zeroed out of every band's mask, so it is never processed —
refuting the claim that the loop covers ten bands down to (0, 0.1]. -/
theorem np_arange_misses_last_band :
    (np_arange 1 (1/10) (-(1/10))).length = 9 ∧
    ((np_arange 1 (1/10) (-(1/10))).all
      fun i => maskSlice exC2 i 1 1 == 0) = true :=
  ⟨by decide, by decide⟩

/-- C1, amended: the loop iterates nine bands, from `(0.9, 1.0]` down to
`(0.1, 0.2]` in far-to-near order; every pixel with depth in `(0, 0.1]`
is excluded from every band's mask and therefore never processed. -/
theorem nine_bands_near_pixels_unprocessed :
    np_arange 1 (1/10) (-(1/10)) =
      [1, 9/10, 4/5, 7/10, 3/5, 1/2, 2/5, 3/10, 1/5] ∧
    ∀ (h w : ℕ) (im : Image h w) (y : Fin h) (x : Fin w) (i : ℚ),
      i ∈ np_arange 1 (1/10) (-(1/10)) → 0 < im y x → im y x ≤ 1/10 →
      maskSlice im i y x = 0 := by
  refine ⟨np_arange_bands, ?_⟩
  intro h w im y x i hi hpos hle
  have hfifth : ∀ j ∈ np_arange 1 (1/10) (-(1/10)), (1:ℚ)/5 ≤ j := by decide
  have hi5 := hfifth i hi
  simp only [maskSlice]
  rw [if_pos (Or.inl (by linarith))]

/-- C1, witness for the amended theorem at the concrete band edge 0.2 and
the depth-0.05 pixel of `exC2`. -/
theorem nine_bands_near_pixels_unprocessed_witness :
    maskSlice exC2 (1/5) 1 1 = 0 :=
  nine_bands_near_pixels_unprocessed.2 4 4 exC2 1 1 (1/5)
    (by decide) (by decide) (by decide)

/-! ### Claim C2 -/

/-- C2, counterexample: on the 4 × 4 scenario image the algorithm does
not return the spec's predicted image (3 × 3 neighbourhood of the near
pixel at 0.05). -/
theorem dilated_4x4_not_claimed :
    get_dilated_depth_buffer (fun _ => 1) 5 exC2 ≠ some claimedC2 := by
  intro heq
  rw [optEqSome_iff.mp (by decide :
    optEqSome (get_dilated_depth_buffer (fun _ => 1) 5 exC2)
      (fun _ _ => 1) = true)] at heq
  have h00 := congrFun (congrFun (Option.some.inj heq) 0) 0
  have hval : claimedC2 0 0 = 1/20 := by decide
  rw [hval] at h00
  exact absurd h00 (by norm_num)

/-- C2, amended: on the 4 × 4 image with one pixel at depth 0.05 and the
rest at 1.0, with `max_depth = 5` and the constant radius function 1, the
algorithm returns the all-ones image: the 0.05 pixel lies in the
unprocessed range (0, 0.1], so it is never dilated and the accumulator
stays 1.0 everywhere. -/
theorem dilated_4x4_all_ones :
    get_dilated_depth_buffer (fun _ => 1) 5 exC2 = some (fun _ _ => 1) :=
  optEqSome_iff.mp (by decide)

/-! ### Claim C3 -/

/-- C3, counterexample: `VRepError.create 128` is the empty tuple even
though 128 ≠ 0 (bit 7 matches no defined flag), refuting "empty iff the
raw code is zero". -/
theorem create_128_empty_nonzero :
    VRepError.create 128 = [] ∧ (128 : ℤ) ≠ 0 := ⟨by decide, by decide⟩

/-- C3, amended: `VRepError.create r` is empty iff no defined flag's
weight has a nonzero bitwise AND with `r` (so `r = 0` gives the empty
tuple, but so does any `r` with only undefined bits set). -/
theorem create_empty_iff_no_flag_bits :
    ∀ r : ℤ, VRepError.create r = [] ↔
      ∀ e : VRepError, Int.land r e.value = 0 := by
  intro r
  by_cases hr : r = 0
  · subst hr
    simp only [VRepError.create, if_pos rfl]
    constructor
    · intro _ e
      cases e <;> decide
    · intro _
      rfl
  · rw [VRepError.create, if_neg hr, List.filter_eq_nil_iff]
    constructor
    · intro hall e
      have h := hall e (VRepError.mem_all e)
      simpa using h
    · intro hall e _
      simp [hall e]

/-! ### Claim C4 -/

/-- C4: `VRepError.create r` contains exactly the flags whose weight has
a nonzero bitwise AND with `r`, listed in ascending weight order, and in
particular `create 9 = (NO_VALUE, SERVER_ERROR)`, `create 0 = ()` and
`create 127` is all seven flags in ascending-weight order. -/
theorem create_exact_flags_sorted :
    (∀ (r : ℤ) (e : VRepError),
      e ∈ VRepError.create r ↔ Int.land r e.value ≠ 0) ∧
    (∀ r : ℤ, ((VRepError.create r).map VRepError.value).Sorted (· < ·)) ∧
    VRepError.create 9 = [.NO_VALUE, .SERVER_ERROR] ∧
    VRepError.create 0 = [] ∧
    VRepError.create 127 = VRepError.all := by
  refine ⟨?_, ?_, by decide, rfl, by decide⟩
  · intro r e
    by_cases hr : r = 0
    · subst hr
      simp only [VRepError.create, if_pos rfl]
      constructor
      · intro he
        exact absurd he (List.not_mem_nil e)
      · intro hne
        exfalso
        apply hne
        cases e <;> decide
    · rw [VRepError.create, if_neg hr, List.mem_filter]
      simp [VRepError.mem_all e]
  · intro r
    have hsub : List.Sublist ((VRepError.create r).map VRepError.value)
        (VRepError.all.map VRepError.value) := by
      apply List.Sublist.map
      rw [VRepError.create]
      split
      · exact List.nil_sublist _
      · exact List.filter_sublist _
    have hsorted : (VRepError.all.map VRepError.value).Sorted (· < ·) := by
      decide
    exact List.Pairwise.sublist hsub hsorted

/-! ### Claim C5 -/

/-- C5: if the operation raises `ConnectionError` on exactly its first N
invocations (with payloads `errs 0 … errs (N-1)`) and returns `v` on
invocation N, then `log_and_retry` terminates with `v`, having invoked
the operation exactly N+1 times and logged exactly the N failure
payloads, one per failed attempt (for any fuel bound larger than N). -/
theorem log_and_retry_conn_failures {α ε φ : Type} (op : ℕ → Res α ε φ)
    (errs : ℕ → ε) (N : ℕ) (v : α) (fuel : ℕ)
    (hconn : ∀ k, k < N → op k = .connError (errs k))
    (hok : op N = .ok v) (hfuel : N < fuel) :
    log_and_retry op fuel =
      some (.success v, N + 1, (List.range N).map errs) := by
  have := retryGo_conn N op errs v 0 [] fuel (by simpa using hconn)
    (by simpa using hok) hfuel
  simpa [log_and_retry, List.range_eq_range'] using this

/-- C5, witness: an operation failing with `ConnectionError` on attempts
0 and 1 and returning 7 on attempt 2 terminates after 3 invocations with
the two logged payloads. -/
theorem log_and_retry_conn_failures_witness :
    log_and_retry
        (fun k => if k < 2 then Res.connError k else Res.ok 7 : ℕ → Res ℕ ℕ ℕ)
        3 = some (.success 7, 3, [0, 1]) := by
  have := log_and_retry_conn_failures
    (fun k => if k < 2 then Res.connError k else Res.ok 7 : ℕ → Res ℕ ℕ ℕ)
    (fun k => k) 2 7 3 (by decide) (by decide) (by decide)
  simpa using this

/-! ### Claim C6 -/

/-- C6: if the operation raises a non-`ConnectionError` exception on its
first invocation, `log_and_retry` propagates it unchanged after exactly
one invocation and logs nothing. -/
theorem log_and_retry_fatal {α ε φ : Type} (op : ℕ → Res α ε φ) (e : φ)
    (fuel : ℕ) (hop : op 0 = .otherError e) (hfuel : 0 < fuel) :
    log_and_retry op fuel = some (.fatal e, 1, []) := by
  match fuel, hfuel with
  | fuel + 1, _ => simp [log_and_retry, retryGo, hop]

/-- C6, witness at a concrete always-fatal operation. -/
theorem log_and_retry_fatal_witness :
    log_and_retry (fun _ => Res.otherError 3 : ℕ → Res ℕ ℕ ℕ) 1 =
      some (.fatal 3, 1, []) :=
  log_and_retry_fatal (fun _ => Res.otherError 3 : ℕ → Res ℕ ℕ ℕ) 3 1 rfl
    (by decide)

/-! ### Claim C7 -/

/-- C7, counterexample: dilating the all-zero 2 × 2 image returns the
all-ones image, not the input — the accumulator starts at 1.0 and the
zero pixels never enter any band. -/
theorem dilate_zero_image_changes :
    get_dilated_depth_buffer (fun _ => 1) 5
        (fun _ _ => 0 : Image 2 2) = some (fun _ _ => 1) ∧
    (fun _ _ => (1:ℚ) : Image 2 2) ≠ (fun _ _ => 0) := by
  refine ⟨optEqSome_iff.mp (by decide), ?_⟩
  intro heq
  have h00 := congrFun (congrFun heq 0) 0
  exact absurd h00 (by norm_num)

/-- C7, amended: for a radius function that never returns a negative
pixel radius, the all-ones image is returned unchanged, while the
all-zero image maps to the all-ones image (not to itself), for any image
size and any `max_depth`. -/
theorem dilate_const_images :
    ∀ (h w : ℕ) (radius_f : ℚ → ℤ) (max_depth : ℚ),
      (∀ q, 0 ≤ radius_f q) →
      get_dilated_depth_buffer radius_f max_depth
          (fun _ _ => 1 : Image h w) = some (fun _ _ => 1) ∧
      get_dilated_depth_buffer radius_f max_depth
          (fun _ _ => 0 : Image h w) = some (fun _ _ => 1) := by
  intro h w radius_f max_depth hrf
  constructor
  · rw [get_dilated_depth_buffer, np_arange_bands, List.foldlM_cons,
      bandStep_ones hrf]
    have hlt : ∀ i ∈ ([9/10, 4/5, 7/10, 3/5, 1/2, 2/5, 3/10, 1/5] : List ℚ),
        i < 1 := by decide
    exact foldlM_keep _ _ fun i hi a =>
      bandStep_slice_zero hrf (maskSlice_ones_lt (hlt i hi)) a
  · rw [get_dilated_depth_buffer]
    have hten : ∀ j ∈ np_arange 1 (1/10) (-(1/10)), (1:ℚ)/10 ≤ j := by decide
    exact foldlM_keep _ _ fun i hi a =>
      bandStep_slice_zero hrf (maskSlice_zeros (hten i hi)) a

/-- C7, witness at 2 × 2 images with the constant radius function 1 and
`max_depth = 5`. -/
theorem dilate_const_images_witness :
    get_dilated_depth_buffer (fun _ => 1) 5
        (fun _ _ => 1 : Image 2 2) = some (fun _ _ => 1) ∧
    get_dilated_depth_buffer (fun _ => 1) 5
        (fun _ _ => 0 : Image 2 2) = some (fun _ _ => 1) :=
  dilate_const_images 2 2 (fun _ => 1) 5 (fun _ => zero_le_one)

/-! ### Claim C8 -/

/-- C8, counterexample: a radius function returning -1 makes the
algorithm fail (`np.ones` raises on negative dimensions), and a radius
of 0 is not a no-op: the empty kernel triggers OpenCV's default 3 × 3
element, so the single 0.95 pixel of `exC8` floods the whole 2 × 2 image
instead of leaving the untouched pixels at 1.0. -/
theorem nonpos_radius_not_noop :
    get_dilated_depth_buffer (fun _ => -1) 5
        (fun _ _ => 1 : Image 2 2) = none ∧
    get_dilated_depth_buffer (fun _ => 0) 5 exC8 = some (fun _ _ => 19/20) ∧
    (fun _ _ => (19:ℚ)/20 : Image 2 2) ≠ noopC8 := by
  refine ⟨by decide, optEqSome_iff.mp (by decide), ?_⟩
  intro heq
  have h01 := congrFun (congrFun heq 0) 1
  have hval : noopC8 0 1 = 1 := by decide
  rw [hval] at h01
  exact absurd h01 (by norm_num)

/-- C8, amended: a kernel size of zero is replaced by OpenCV's default
3 × 3 structuring element (a genuine 3 × 3 dilation, not an identity),
and a negative radius at any band edge makes the whole algorithm raise
(return `none`) rather than no-op. -/
theorem zero_kernel_default_and_negative_fails :
    (∀ (h w : ℕ) (im : Image h w), cv2_dilate im 0 = dilateS im 3) ∧
    (∀ (h w : ℕ) (radius_f : ℚ → ℤ) (max_depth : ℚ) (im : Image h w),
      (∃ i ∈ np_arange 1 (1/10) (-(1/10)),
        radius_f ((i - 1/10) * max_depth) < 0) →
      get_dilated_depth_buffer radius_f max_depth im = none) := by
  constructor
  · intro h w im
    rfl
  · rintro h w radius_f max_depth im ⟨i, hi, hneg⟩
    rw [get_dilated_depth_buffer]
    exact foldlM_none _ ⟨i, hi, by unfold kerSize; omega⟩ _

/-- C8, witness: the zero-kernel fallback on a 2 × 2 image, and failure
with the constant radius function -1. -/
theorem zero_kernel_default_and_negative_fails_witness :
    cv2_dilate (fun _ _ => 1 : Image 2 2) 0 = dilateS (fun _ _ => 1) 3 ∧
    get_dilated_depth_buffer (fun _ => -1) 5
        (fun _ _ => 1 : Image 2 2) = none :=
  ⟨zero_kernel_default_and_negative_fails.1 2 2 _,
   zero_kernel_default_and_negative_fails.2 2 2 (fun _ => -1) 5 _
     ⟨1, by decide, by decide⟩⟩

/-! ### Claim C9 -/

/-- C9, counterexample: raising the radius from 0 to 1 shrinks the
band's nonzero contribution from 9 pixels to 4 on `exC9` (kernel side
`2*0 = 0` triggers OpenCV's default 3 × 3 element, while side `2*1 = 2`
gives a 2 × 2 element), refuting monotonicity in full generality. -/
theorem radius_increase_count_decrease :
    (bandDilation (fun _ => 0) 5 exC9 1).map countNonzero = some 9 ∧
    (bandDilation (fun _ => 1) 5 exC9 1).map countNonzero = some 4 ∧
    (4 : ℕ) < 9 :=
  ⟨by decide, by decide, by decide⟩

/-- C9, amended: for radii that are at least 1 (so the kernel side
`2*radius` is nonzero and OpenCV's empty-kernel fallback is not hit),
increasing the radius weakly increases the number of nonzero pixels a
band's dilation contributes, for every input image and every band edge
of the loop. -/
theorem dilation_count_mono_of_pos_radius :
    ∀ (h w : ℕ) (im : Image h w) (i : ℚ),
      i ∈ np_arange 1 (1/10) (-(1/10)) →
      ∀ r r' : ℕ, 1 ≤ r → r ≤ r' →
      countNonzero (cv2_dilate (maskSlice im i) (2 * r)) ≤
        countNonzero (cv2_dilate (maskSlice im i) (2 * r')) := by
  intro h w im i hi r r' hr hrr
  have hten : ∀ j ∈ np_arange 1 (1/10) (-(1/10)), (1:ℚ)/10 ≤ j := by decide
  have hnn : ∀ y x, 0 ≤ maskSlice im i y x :=
    maskSlice_nonneg (hten i hi)
  rw [cv2_dilate, cv2_dilate, if_neg (by omega), if_neg (by omega)]
  exact countNonzero_mono fun y x hne =>
    dilate_px_mono hnn (by omega) y x hne

/-- C9, witness at `exC9`, band edge 1.0, radii 1 and 2. -/
theorem dilation_count_mono_of_pos_radius_witness :
    countNonzero (cv2_dilate (maskSlice exC9 1) (2 * 1)) ≤
      countNonzero (cv2_dilate (maskSlice exC9 1) (2 * 2)) :=
  dilation_count_mono_of_pos_radius 3 3 exC9 1 (by decide) 1 2
    (by decide) (by decide)

/-! ### Claim C10 -/

/-- C10: whenever the dilation algorithm returns an image, every pixel of
that image is nonzero — the accumulator starts at 1.0 everywhere and is
only overwritten at positions where the dilated band slice is nonzero. -/
theorem dilated_output_nonzero :
    ∀ (h w : ℕ) (radius_f : ℚ → ℤ) (max_depth : ℚ) (im out : Image h w),
      get_dilated_depth_buffer radius_f max_depth im = some out →
      ∀ y x, out y x ≠ 0 := by
  intro h w radius_f max_depth im out hout y x
  exact foldlM_ne_zero _ _ (fun _ _ => one_ne_zero) out hout y x

/-- C10, witness at the all-ones 2 × 2 image. -/
theorem dilated_output_nonzero_witness :
    (fun _ _ => (1:ℚ) : Image 2 2) 0 0 ≠ 0 :=
  dilated_output_nonzero 2 2 (fun _ => 1) 5 (fun _ _ => 1) (fun _ _ => 1)
    (optEqSome_iff.mp (by decide)) 0 0

end VrepObject
